import Mathlib

/-!
Shallow embedding of `obographs/assocmodel.py` (class `AssociationSet`) and
verification of its specification.

Modelling conventions:
* Python `str` identifiers become `String`; Python `set` becomes `Finset`;
  a Python `dict` becomes an insertion-ordered association list whose lookup
  takes the first matching key (Python dicts have unique keys).
* Python floats carrying probabilities become `ℚ` (the claims under test are
  exact structural facts about the arithmetic, not rounding facts).
* Fallible code (`raise UnknownSubjectException`) becomes `Except`.
* `scipy.stats.fisher_exact` is an external dependency; it is a function
  parameter `fisher` taking the four contingency cells and the direction.
-/

set_option autoImplicit false

namespace AssocModel

abbrev TermID := String
abbrev SubjectID := String

/-- External ontology collaborator: `ancestors` (non-reflexive) and `label`. -/
structure Ontology where
  ancestors : TermID → Finset TermID
  label : TermID → Option String

/-- Embeds the `UnknownSubjectException` class (carrying the subject id the
`raise UnknownSubjectException(subj)` call site passes). -/
structure UnknownSubjectException where
  subj : SubjectID
  deriving DecidableEq

/-- An `AssociationSet` as constructed by `__init__`: the ontology, the
`association_map` (a dict, modelled as an insertion-ordered association list
with unique keys) and the `strict` flag. -/
structure AssociationSet where
  ontology : Ontology
  association_map : List (SubjectID × Finset TermID)
  strict : Bool

/-- Embeds `__init__(ontology, association_map)`: it sets `self.strict = False`
(the lenient default) before indexing. -/
def mkAssociationSet (ont : Ontology) (m : List (SubjectID × Finset TermID)) :
    AssociationSet :=
  { ontology := ont, association_map := m, strict := false }

/-- Python dict lookup on the association-list model: value at the first
matching key. -/
def lookupAssoc : List (SubjectID × Finset TermID) → SubjectID →
    Option (Finset TermID)
  | [], _ => none
  | p :: rest, s => if p.1 = s then some p.2 else lookupAssoc rest s

/-- Embeds `AssociationSet.termset_ancestors`: the union of
`ontology.ancestors(term)` over the term set, union the terms themselves
(reflexive ancestors). -/
def termset_ancestors (ont : Ontology) (terms : Finset TermID) : Finset TermID :=
  (terms.biUnion ont.ancestors) ∪ terms

/-- Embeds the `subject_to_inferred_map` built by `AssociationSet.index`:
for each `(subj, terms)` entry of `association_map`, the entry
`(subj, termset_ancestors(terms))`. -/
def AssociationSet.subject_to_inferred_map (A : AssociationSet) :
    List (SubjectID × Finset TermID) :=
  A.association_map.map (fun p => (p.1, termset_ancestors A.ontology p.2))

/-- Embeds `self.subjects = list(self.association_map.keys())` set by `index`. -/
def AssociationSet.subjects (A : AssociationSet) : List SubjectID :=
  A.association_map.map Prod.fst

/-- Embeds `AssociationSet.inferred_types`: the stored closure when the
subject is indexed; otherwise raise `UnknownSubjectException(subj)` in strict
mode and return the empty set in lenient mode. -/
def AssociationSet.inferred_types (A : AssociationSet) (subj : SubjectID) :
    Except UnknownSubjectException (Finset TermID) :=
  match lookupAssoc A.subject_to_inferred_map subj with
  | some t => .ok t
  | none => if A.strict then .error ⟨subj⟩ else .ok ∅

/-- The total closure lookup: the behaviour of `inferred_types` in lenient
mode (`strict = False`, the constructor default) — the stored closure for an
indexed subject, the empty set otherwise. -/
def AssociationSet.inferredD (A : AssociationSet) (subj : SubjectID) :
    Finset TermID :=
  (lookupAssoc A.subject_to_inferred_map subj).getD ∅

/-- The loop of `AssociationSet.query` over a list of subjects: a subject is
kept when the include-termset intersection has full cardinality and the
negated-termset intersection is empty; each `inferred_types` call may raise. -/
def AssociationSet.queryAux (A : AssociationSet)
    (termset negated_termset : Finset TermID) :
    List SubjectID → Except UnknownSubjectException (List SubjectID)
  | [] => .ok []
  | subj :: rest => do
      let inf ← A.inferred_types subj
      let restMatches ← A.queryAux termset negated_termset rest
      if (termset ∩ inf).card = termset.card ∧ (negated_termset ∩ inf).card = 0 then
        .ok (subj :: restMatches)
      else
        .ok restMatches

/-- Embeds `AssociationSet.query(terms, negated_terms)`: the boolean query
over `self.subjects` in index order. -/
def AssociationSet.query (A : AssociationSet)
    (terms negated_terms : List TermID) :
    Except UnknownSubjectException (List SubjectID) :=
  A.queryAux terms.toFinset negated_terms.toFinset A.subjects

/-- Result record of `query_intersections`:
`{'x': x, 'y': y, 'shared': shared, 'c': len(shared)}`. -/
structure IntersectionRecord where
  x : TermID
  y : TermID
  shared : Finset SubjectID
  c : ℕ
  deriving DecidableEq

/-- Embeds the `gmap` built by `query_intersections`: a subject lands in
`gmap[z]` iff `z` is in both the subject's closure and `zset`; the collected
list is turned into a set. Uses the lenient closure (`strict = False`, the
constructor default). -/
def AssociationSet.gmap (A : AssociationSet) (zset : Finset TermID)
    (z : TermID) : Finset SubjectID :=
  (A.subjects.filter (fun s => decide (z ∈ A.inferredD s ∩ zset))).toFinset

/-- Embeds `AssociationSet.query_intersections(x_terms, y_terms)`. Note the
source draws BOTH loop variables from `x_terms` (`for x in x_terms: for y in
x_terms:`), with `y_terms` only contributing to `zset`. -/
def AssociationSet.query_intersections (A : AssociationSet)
    (x_terms y_terms : List TermID) : List IntersectionRecord :=
  let zset := x_terms.toFinset ∪ y_terms.toFinset
  x_terms.flatMap (fun x =>
    x_terms.filterMap (fun y =>
      if x < y then
        let shared := A.gmap zset x ∩ A.gmap zset y
        some { x := x, y := y, shared := shared, c := shared.card }
      else none))

/-- Result record of `enrichment_test`:
`{'c': cls, 'p': p, 'p_uncorrected': p_uncorrected}` plus the optional label
field `'n'`. -/
structure EnrichmentRecord where
  c : TermID
  p : ℚ
  p_uncorrected : ℚ
  n : Option String
  deriving DecidableEq

/-- The hypothesis set of `enrichment_test`: the union of the (lenient)
closures of the sample members. -/
def AssociationSet.hypothesesOf (A : AssociationSet)
    (sample : Finset SubjectID) : Finset TermID :=
  sample.biUnion A.inferredD

/-- The effective background of `enrichment_test`: the given background (or
`self.subjects` when `None`), union the sample
(`background.update(subjects)`). -/
def AssociationSet.effectiveBg (A : AssociationSet)
    (background : Option (List SubjectID)) (sample : Finset SubjectID) :
    Finset SubjectID :=
  (match background with
   | none => A.subjects.toFinset
   | some l => l.toFinset) ∪ sample

/-- The `bg_count` of a term: the number of background members whose closure
contains it. -/
def AssociationSet.bg_count (A : AssociationSet) (bg : Finset SubjectID)
    (c : TermID) : ℕ :=
  (bg.filter (fun s => c ∈ A.inferredD s)).card

/-- The `sample_count` of a term: the number of sample members whose closure
contains it. -/
def AssociationSet.sample_count (A : AssociationSet) (sample : Finset SubjectID)
    (c : TermID) : ℕ :=
  (sample.filter (fun s => c ∈ A.inferredD s)).card

/-- The retained hypothesis list of `enrichment_test`:
`[x for x in hypotheses if bg_count[x] > 1]` (Python iterates the set in an
implementation-defined order; the model iterates it in sorted order, a
deterministic stand-in). -/
def AssociationSet.retained_hypotheses (A : AssociationSet)
    (sample bg : Finset SubjectID) : List TermID :=
  ((A.hypothesesOf sample).sort (· ≤ ·)).filter
    (fun c => decide (1 < A.bg_count bg c))

/-- The `num_hypotheses` of `enrichment_test`: the number of retained
hypothesis terms, used as the Bonferroni factor. -/
def AssociationSet.num_hypotheses (A : AssociationSet)
    (sample bg : Finset SubjectID) : ℕ :=
  (A.retained_hypotheses sample bg).length

/-- The per-term body of the result loop of `enrichment_test`: build the
contingency table `a`, `b`, `c`, `d` (integer cells, as Python ints), obtain
the uncorrected p-value from the external test, Bonferroni-correct it
(`p = p_uncorrected * num_hypotheses`, capped at `1.0`) and keep the record
when the corrected value is below the threshold. -/
def AssociationSet.enrichment_record (A : AssociationSet)
    (fisher : ℤ → ℤ → ℤ → ℤ → String → ℚ) (sample bg : Finset SubjectID)
    (num : ℕ) (threshold : ℚ) (labels : Bool) (direction : String)
    (cls : TermID) : Option EnrichmentRecord :=
  let a : ℤ := A.sample_count sample cls
  let b : ℤ := (sample.card : ℤ) - a
  let c2 : ℤ := (A.bg_count bg cls : ℤ) - a
  let d : ℤ := ((bg.card : ℤ) - (A.bg_count bg cls : ℤ)) - b
  let p_uncorrected := fisher a b c2 d direction
  let p1 := p_uncorrected * (num : ℚ)
  let p := if 1 < p1 then 1 else p1
  if p < threshold then
    some { c := cls, p := p, p_uncorrected := p_uncorrected,
           n := if labels then A.ontology.label cls else none }
  else none

/-- Embeds `AssociationSet.enrichment_test` in lenient mode (`strict = False`,
the constructor default). `fisher` stands for the external
`scipy.stats.fisher_exact`, applied to the four contingency cells and the
direction string. Records are finally sorted ascending by corrected p-value
(stable sort, as Python's `sorted`). -/
def AssociationSet.enrichment_test (A : AssociationSet)
    (fisher : ℤ → ℤ → ℤ → ℤ → String → ℚ)
    (subjects : List SubjectID) (background : Option (List SubjectID))
    (threshold : ℚ) (labels : Bool) (direction : String) :
    List EnrichmentRecord :=
  let sample := subjects.toFinset
  let bg := A.effectiveBg background sample
  let hyps := A.retained_hypotheses sample bg
  let results := hyps.filterMap
    (A.enrichment_record fisher sample bg hyps.length threshold labels direction)
  results.mergeSort (fun r1 r2 => decide (r1.p ≤ r2.p))

/-- Embeds `AssociationSet.jaccard_similarity` in lenient mode
(`strict = False`, the constructor default): intersection size over union
size of the two closures, `0.0` when the union is empty. -/
def AssociationSet.jaccard_similarity (A : AssociationSet)
    (s1 s2 : SubjectID) : ℚ :=
  let a1 := A.inferredD s1
  let a2 := A.inferredD s2
  let num_union := (a1 ∪ a2).card
  if num_union = 0 then 0 else ((a1 ∩ a2).card : ℚ) / (num_union : ℚ)

/-! Concrete instances (the end-to-end scenario of the specification:
ontology `A → B → C`, subjects `g1:[A]`, `g2:[A]`, `g3:[B]`), used to
evaluate the theorems on concrete inputs. -/

/-- Concrete ontology with `ancestors(A)={B,C}`, `ancestors(B)={C}`,
`ancestors(C)={}`. -/
def demoOntology : Ontology where
  ancestors := fun t => if t = "A" then {"B", "C"} else if t = "B" then {"C"} else ∅
  label := fun _ => none

/-- Concrete association set over `demoOntology` (constructed with the
default lenient mode). -/
def demoA : AssociationSet :=
  mkAssociationSet demoOntology [("g1", {"A"}), ("g2", {"A"}), ("g3", {"B"})]

/-- The same association set with the `strict` flag switched on. -/
def demoStrict : AssociationSet :=
  { demoA with strict := true }

/-- Concrete stand-in for the external exact test: constantly `1/2` (its
values lie in `[0,1]`, as the real test's do). -/
def demoFisher : ℤ → ℤ → ℤ → ℤ → String → ℚ := fun _ _ _ _ _ => 1/2

/-- The `zset` arising in `query_intersections` for
`x_terms = [A, B]`, `y_terms = [C]`. -/
def demoZset : Finset TermID :=
  (["A", "B"] : List TermID).toFinset ∪ (["C"] : List TermID).toFinset

/-- The shared-subject set of the pair `(A, B)` on the concrete data. -/
def demoShared : Finset SubjectID :=
  demoA.gmap demoZset "A" ∩ demoA.gmap demoZset "B"

/-- The single intersection record produced on the concrete data for
`x_terms = [A, B]`. -/
def demoRecordAB : IntersectionRecord :=
  { x := "A", y := "B", shared := demoShared, c := demoShared.card }

/-! Helper lemmas about the index. -/

theorem lookupAssoc_map_termset (ont : Ontology)
    (m : List (SubjectID × Finset TermID)) (s : SubjectID) :
    lookupAssoc (m.map (fun p => (p.1, termset_ancestors ont p.2))) s =
      (lookupAssoc m s).map (termset_ancestors ont) := by
  induction m with
  | nil => rfl
  | cons p rest ih =>
      simp only [List.map_cons, lookupAssoc]
      by_cases h : p.1 = s
      · simp [h]
      · simp [h, ih]

theorem lookup_subject_to_inferred_map (A : AssociationSet) (s : SubjectID) :
    lookupAssoc A.subject_to_inferred_map s =
      (lookupAssoc A.association_map s).map (termset_ancestors A.ontology) :=
  lookupAssoc_map_termset A.ontology A.association_map s

theorem lookupAssoc_isSome_iff (m : List (SubjectID × Finset TermID))
    (s : SubjectID) : (lookupAssoc m s).isSome ↔ s ∈ m.map Prod.fst := by
  induction m with
  | nil => simp [lookupAssoc]
  | cons p rest ih =>
      simp only [lookupAssoc, List.map_cons, List.mem_cons]
      by_cases h : p.1 = s
      · simp [h]
      · simp only [h, if_false, ih]
        constructor
        · exact Or.inr
        · rintro (hs | hs)
          · exact absurd hs.symm h
          · exact hs

theorem subjects_lookup_isSome (A : AssociationSet) (s : SubjectID)
    (hs : s ∈ A.subjects) : (lookupAssoc A.subject_to_inferred_map s).isSome := by
  rw [lookupAssoc_isSome_iff]
  unfold AssociationSet.subject_to_inferred_map
  rw [List.map_map]
  exact hs

theorem inferred_types_ok_of_mem (A : AssociationSet) (s : SubjectID)
    (hs : s ∈ A.subjects) : A.inferred_types s = .ok (A.inferredD s) := by
  have h := subjects_lookup_isSome A s hs
  rcases Option.isSome_iff_exists.mp h with ⟨t, ht⟩
  unfold AssociationSet.inferred_types AssociationSet.inferredD
  rw [ht]
  rfl

theorem bind_ok_eq {α β : Type} (a : α)
    (f : α → Except UnknownSubjectException β) :
    ((Except.ok a : Except UnknownSubjectException α) >>= f) = f a := rfl

theorem inter_card_eq_iff (ts inf : Finset TermID) :
    (ts ∩ inf).card = ts.card ↔ ts ⊆ inf := by
  constructor
  · intro h
    have heq : ts ∩ inf = ts :=
      Finset.eq_of_subset_of_card_le Finset.inter_subset_left (le_of_eq h.symm)
    calc ts = ts ∩ inf := heq.symm
    _ ⊆ inf := Finset.inter_subset_right
  · intro h
    rw [Finset.inter_eq_left.mpr h]

theorem queryAux_eq_filter (A : AssociationSet) (ts ns : Finset TermID) :
    ∀ l : List SubjectID, (∀ s ∈ l, s ∈ A.subjects) →
      A.queryAux ts ns l = .ok (l.filter (fun s =>
        decide (ts ⊆ A.inferredD s ∧ ns ∩ A.inferredD s = ∅)))
  | [], _ => rfl
  | subj :: rest, h => by
      have hsubj : subj ∈ A.subjects := h subj (List.mem_cons_self subj rest)
      have hrest : ∀ s ∈ rest, s ∈ A.subjects :=
        fun s hs => h s (List.mem_cons_of_mem subj hs)
      have hok := inferred_types_ok_of_mem A subj hsubj
      have ih := queryAux_eq_filter A ts ns rest hrest
      have hiff : ((ts ∩ A.inferredD subj).card = ts.card ∧
          (ns ∩ A.inferredD subj).card = 0) ↔
          (ts ⊆ A.inferredD subj ∧ ns ∩ A.inferredD subj = ∅) :=
        and_congr (inter_card_eq_iff ts (A.inferredD subj)) Finset.card_eq_zero
      simp only [AssociationSet.queryAux, hok, ih, bind_ok_eq, List.filter_cons]
      by_cases hc : ts ⊆ A.inferredD subj ∧ ns ∩ A.inferredD subj = ∅
      · rw [if_pos (hiff.mpr hc), if_pos (by simpa using hc)]
      · rw [if_neg (fun hcon => hc (hiff.mp hcon)), if_neg (by simpa using hc)]

/-- C1: `query` returns exactly those indexed subjects whose closure contains
every include term and no exclude term, in `SubjectIndex` order; with both
term lists empty it returns every indexed subject in index order. -/
theorem query_spec (A : AssociationSet) (terms negated_terms : List TermID) :
    A.query terms negated_terms = .ok (A.subjects.filter (fun s =>
      decide (terms.toFinset ⊆ A.inferredD s ∧
        negated_terms.toFinset ∩ A.inferredD s = ∅))) ∧
    A.query [] [] = .ok A.subjects := by
  constructor
  · exact queryAux_eq_filter A terms.toFinset negated_terms.toFinset
      A.subjects (fun s hs => hs)
  · have h := queryAux_eq_filter A ([] : List TermID).toFinset
      ([] : List TermID).toFinset A.subjects (fun s hs => hs)
    unfold AssociationSet.query
    rw [h]
    congr 1
    have hp : (fun s => decide (([] : List TermID).toFinset ⊆ A.inferredD s ∧
        ([] : List TermID).toFinset ∩ A.inferredD s = ∅)) = fun _ => true := by
      funext s
      simp
    rw [hp, List.filter_true]

/-- C10: every subject listed in the subject index has an entry in the
closure map, so a closure lookup for an indexed subject never reaches the
unknown-subject error branch (even in strict mode), and `query` completes
without error for every include/exclude input. -/
theorem index_covers_subjects (A : AssociationSet) :
    (∀ s ∈ A.subjects, (lookupAssoc A.subject_to_inferred_map s).isSome) ∧
    (∀ s ∈ A.subjects, ∃ t, A.inferred_types s = .ok t) ∧
    (∀ terms negated_terms : List TermID, ∃ l,
      A.query terms negated_terms = .ok l) := by
  exact ⟨fun s hs => subjects_lookup_isSome A s hs,
         fun s hs => ⟨A.inferredD s, inferred_types_ok_of_mem A s hs⟩,
         fun terms negs =>
           ⟨A.subjects.filter (fun s => decide (terms.toFinset ⊆ A.inferredD s ∧
              negs.toFinset ∩ A.inferredD s = ∅)),
            queryAux_eq_filter A terms.toFinset negs.toFinset A.subjects
              (fun s hs => hs)⟩⟩

/-- Witness for C10: on the concrete strict-mode association set, the lookup
of the indexed subject `g1` succeeds and a query completes without error. -/
theorem index_covers_subjects_witness :
    (lookupAssoc demoStrict.subject_to_inferred_map "g1").isSome ∧
    (∃ t, demoStrict.inferred_types "g1" = .ok t) ∧
    (∃ l, demoStrict.query ["A"] ["B"] = .ok l) :=
  ⟨(index_covers_subjects demoStrict).1 "g1" (by decide),
   (index_covers_subjects demoStrict).2.1 "g1" (by decide),
   (index_covers_subjects demoStrict).2.2 ["A"] ["B"]⟩

/-- C2: for every subject present in the direct-annotation map at index time,
the closure stored for it (the lenient closure lookup) is a superset of its
direct term set, for every ontology and every direct-annotation map. -/
theorem closure_superset_direct (A : AssociationSet) (s : SubjectID)
    (terms : Finset TermID) (h : lookupAssoc A.association_map s = some terms) :
    terms ⊆ A.inferredD s := by
  have hm := lookup_subject_to_inferred_map A s
  rw [h] at hm
  unfold AssociationSet.inferredD
  rw [hm]
  exact Finset.subset_union_right

/-- Witness for C2: the direct annotation of `g1` is contained in its stored
closure in the concrete association set. -/
theorem closure_superset_direct_witness :
    ({"A"} : Finset TermID) ⊆ demoA.inferredD "g1" :=
  closure_superset_direct demoA "g1" {"A"} rfl

/-- C4: `inferred_types` returns the stored closure for an indexed subject;
for an absent subject it raises `UnknownSubjectException(subj)` when strict
mode is enabled and returns the empty set when it is disabled; the
constructor's default is lenient (`strict = false`). -/
theorem inferred_types_modes (A : AssociationSet) (subj : SubjectID) :
    (∀ t, lookupAssoc A.subject_to_inferred_map subj = some t →
      A.inferred_types subj = .ok t) ∧
    (lookupAssoc A.subject_to_inferred_map subj = none → A.strict = true →
      A.inferred_types subj = .error ⟨subj⟩) ∧
    (lookupAssoc A.subject_to_inferred_map subj = none → A.strict = false →
      A.inferred_types subj = .ok ∅) ∧
    (∀ ont m, (mkAssociationSet ont m).strict = false) := by
  refine ⟨?_, ?_, ?_, ?_⟩
  · intro t ht
    unfold AssociationSet.inferred_types
    rw [ht]
  · intro hn hs
    unfold AssociationSet.inferred_types
    rw [hn, hs]
    rfl
  · intro hn hs
    unfold AssociationSet.inferred_types
    rw [hn, hs]
    rfl
  · intro ont m
    rfl

/-- Witness for C4: on the concrete association set, the lookup of the
indexed subject `g1` succeeds with its stored closure, the lookup of the
absent subject `gX` raises in strict mode and yields the empty set in the
lenient default mode. -/
theorem inferred_types_modes_witness :
    demoA.inferred_types "g1" = .ok (demoA.inferredD "g1") ∧
    demoStrict.inferred_types "gX" = .error ⟨"gX"⟩ ∧
    demoA.inferred_types "gX" = .ok ∅ ∧
    (mkAssociationSet demoOntology []).strict = false :=
  ⟨(inferred_types_modes demoA "g1").1 (demoA.inferredD "g1") rfl,
   (inferred_types_modes demoStrict "gX").2.1 (by decide) rfl,
   (inferred_types_modes demoA "gX").2.2.1 (by decide) rfl,
   (inferred_types_modes demoA "g1").2.2.2 demoOntology []⟩

/-- C5: `jaccard_similarity` equals intersection size over union size of the
two closures when the union is non-empty, equals `0` when both closures are
empty, always lies in `[0,1]`, and equals `1` on a subject with non-empty
closure compared with itself. -/
theorem jaccard_spec (A : AssociationSet) (s1 s2 : SubjectID) :
    (A.inferredD s1 ∪ A.inferredD s2 ≠ ∅ →
      A.jaccard_similarity s1 s2 =
        ((A.inferredD s1 ∩ A.inferredD s2).card : ℚ) /
        ((A.inferredD s1 ∪ A.inferredD s2).card : ℚ)) ∧
    (A.inferredD s1 = ∅ → A.inferredD s2 = ∅ →
      A.jaccard_similarity s1 s2 = 0) ∧
    0 ≤ A.jaccard_similarity s1 s2 ∧
    A.jaccard_similarity s1 s2 ≤ 1 ∧
    (A.inferredD s1 ≠ ∅ → A.jaccard_similarity s1 s1 = 1) := by
  have hself : A.inferredD s1 ≠ ∅ → A.jaccard_similarity s1 s1 = 1 := by
    intro h1
    have hc : (A.inferredD s1).card ≠ 0 := fun hc => h1 (Finset.card_eq_zero.mp hc)
    simp only [AssociationSet.jaccard_similarity, Finset.union_self,
      Finset.inter_self]
    rw [if_neg hc]
    exact div_self (by exact_mod_cast hc)
  by_cases hcard : (A.inferredD s1 ∪ A.inferredD s2).card = 0
  · have hz : A.jaccard_similarity s1 s2 = 0 := by
      simp only [AssociationSet.jaccard_similarity]
      rw [if_pos hcard]
    refine ⟨?_, ?_, ?_, ?_, hself⟩
    · intro hne
      exact absurd (Finset.card_eq_zero.mp hcard) hne
    · intro _ _
      exact hz
    · rw [hz]
    · rw [hz]
      norm_num
  · have hval : A.jaccard_similarity s1 s2 =
        ((A.inferredD s1 ∩ A.inferredD s2).card : ℚ) /
        ((A.inferredD s1 ∪ A.inferredD s2).card : ℚ) := by
      simp only [AssociationSet.jaccard_similarity]
      rw [if_neg hcard]
    have hpos : (0:ℚ) < ((A.inferredD s1 ∪ A.inferredD s2).card : ℚ) := by
      exact_mod_cast Nat.pos_of_ne_zero hcard
    refine ⟨fun _ => hval, ?_, ?_, ?_, hself⟩
    · intro h1 h2
      refine absurd ?_ hcard
      rw [h1, h2]
      simp
    · rw [hval]
      positivity
    · rw [hval]
      rw [div_le_one hpos]
      have hsub : (A.inferredD s1 ∩ A.inferredD s2) ⊆
          (A.inferredD s1 ∪ A.inferredD s2) :=
        Finset.inter_subset_left.trans Finset.subset_union_left
      exact_mod_cast Finset.card_le_card hsub

/-- Witness for C5: on the concrete association set, `g1` has non-empty
closure and its self-similarity is `1`. -/
theorem jaccard_spec_witness : demoA.jaccard_similarity "g1" "g1" = 1 :=
  (jaccard_spec demoA "g1" "g1").2.2.2.2 (by decide)

theorem filterMap_congr_mem {α β : Type} (l : List α) (f g : α → Option β)
    (h : ∀ a ∈ l, f a = g a) : l.filterMap f = l.filterMap g := by
  induction l with
  | nil => rfl
  | cons a rest ih =>
      simp only [List.filterMap_cons, h a (List.mem_cons_self a rest),
        ih (fun b hb => h b (List.mem_cons_of_mem a hb))]

theorem flatMap_congr_mem {α β : Type} (l : List α) (f g : α → List β)
    (h : ∀ a ∈ l, f a = g a) : l.flatMap f = l.flatMap g := by
  induction l with
  | nil => rfl
  | cons a rest ih =>
      simp only [List.flatMap_cons, h a (List.mem_cons_self a rest),
        ih (fun b hb => h b (List.mem_cons_of_mem a hb))]

theorem gmap_of_mem (A : AssociationSet) (zset : Finset TermID) (z : TermID)
    (hz : z ∈ zset) :
    A.gmap zset z =
      (A.subjects.filter (fun s => decide (z ∈ A.inferredD s))).toFinset := by
  unfold AssociationSet.gmap
  congr 1
  have hp : (fun s => decide (z ∈ A.inferredD s ∩ zset)) =
      (fun s => decide (z ∈ A.inferredD s)) := by
    funext s
    simp [Finset.mem_inter, hz]
  rw [hp]

theorem query_intersections_canonical (A : AssociationSet)
    (xt yt : List TermID) :
    A.query_intersections xt yt = xt.flatMap (fun x => xt.filterMap (fun y =>
      if x < y then
        some { x := x, y := y,
               shared := (A.subjects.filter
                   (fun s => decide (x ∈ A.inferredD s))).toFinset ∩
                 (A.subjects.filter
                   (fun s => decide (y ∈ A.inferredD s))).toFinset,
               c := ((A.subjects.filter
                   (fun s => decide (x ∈ A.inferredD s))).toFinset ∩
                 (A.subjects.filter
                   (fun s => decide (y ∈ A.inferredD s))).toFinset).card }
      else none)) := by
  simp only [AssociationSet.query_intersections]
  apply flatMap_congr_mem
  intro x hx
  apply filterMap_congr_mem
  intro y hy
  by_cases hlt : x < y
  · have hxz : x ∈ xt.toFinset ∪ yt.toFinset :=
      Finset.mem_union_left _ (List.mem_toFinset.mpr hx)
    have hyz : y ∈ xt.toFinset ∪ yt.toFinset :=
      Finset.mem_union_left _ (List.mem_toFinset.mpr hy)
    rw [if_pos hlt, if_pos hlt, gmap_of_mem A _ x hxz, gmap_of_mem A _ y hyz]
  · rw [if_neg hlt, if_neg hlt]

theorem demo_intersections_eq :
    demoA.query_intersections ["A", "B"] ["C"] = [demoRecordAB] := by
  have hAB : ("A" : String) < "B" := by
    rw [String.lt_iff_toList_lt]
    decide
  have hAA : ¬ ("A" : String) < "A" := lt_irrefl _
  have hBA : ¬ ("B" : String) < "A" := fun h => absurd h (lt_asymm hAB)
  have hBB : ¬ ("B" : String) < "B" := lt_irrefl _
  simp only [AssociationSet.query_intersections, List.flatMap_cons,
    List.flatMap_nil, List.filterMap_cons, List.filterMap_nil,
    List.append_nil, hAB, hAA, hBA, hBB, if_true, if_false, ite_true,
    ite_false]
  rfl

/-- C6: every record of `query_intersections` has `x < y` (strict term
ordering), its `shared` set is exactly the indexed subjects whose closure
contains both terms, and its count `c` is the size of `shared`. -/
theorem query_intersections_spec (A : AssociationSet)
    (x_terms y_terms : List TermID) (r : IntersectionRecord)
    (hr : r ∈ A.query_intersections x_terms y_terms) :
    r.x < r.y ∧
    r.shared = (A.subjects.filter (fun s =>
      decide (r.x ∈ A.inferredD s ∧ r.y ∈ A.inferredD s))).toFinset ∧
    r.c = r.shared.card := by
  rw [query_intersections_canonical] at hr
  rcases List.mem_flatMap.mp hr with ⟨x, hx, hmem⟩
  rcases List.mem_filterMap.mp hmem with ⟨y, hy, hxy⟩
  by_cases hlt : x < y
  · rw [if_pos hlt] at hxy
    obtain rfl := Option.some.inj hxy
    refine ⟨hlt, ?_, rfl⟩
    ext a
    simp only [Finset.mem_inter, List.mem_toFinset, List.mem_filter,
      decide_eq_true_eq]
    tauto
  · rw [if_neg hlt] at hxy
    exact absurd hxy (by simp)

/-- Witness for C6: the single record produced on the concrete association
set for `x_terms = [A, B]` pairs `A` before `B`, shares exactly the subjects
whose closure holds both terms, and counts them. -/
theorem query_intersections_spec_witness :
    demoRecordAB.x < demoRecordAB.y ∧
    demoRecordAB.shared = (demoA.subjects.filter (fun s =>
      decide (demoRecordAB.x ∈ demoA.inferredD s ∧
        demoRecordAB.y ∈ demoA.inferredD s))).toFinset ∧
    demoRecordAB.c = demoRecordAB.shared.card :=
  query_intersections_spec demoA ["A", "B"] ["C"] demoRecordAB (by
    rw [demo_intersections_eq]
    exact List.mem_singleton_self _)

/-- C7: `query_intersections` does not depend on its `y_terms` argument (the
source pairs both loop variables over `x_terms`), and every returned pair
has both members drawn from `x_terms`. -/
theorem query_intersections_ignores_y (A : AssociationSet)
    (x_terms y1 y2 : List TermID) :
    A.query_intersections x_terms y1 = A.query_intersections x_terms y2 ∧
    (∀ r ∈ A.query_intersections x_terms y1,
      r.x ∈ x_terms ∧ r.y ∈ x_terms) := by
  constructor
  · rw [query_intersections_canonical A x_terms y1,
      query_intersections_canonical A x_terms y2]
  · intro r hr
    rw [query_intersections_canonical] at hr
    rcases List.mem_flatMap.mp hr with ⟨x, hx, hmem⟩
    rcases List.mem_filterMap.mp hmem with ⟨y, hy, hxy⟩
    by_cases hlt : x < y
    · rw [if_pos hlt] at hxy
      obtain rfl := Option.some.inj hxy
      exact ⟨hx, hy⟩
    · rw [if_neg hlt] at hxy
      exact absurd hxy (by simp)

/-- Witness for C7: on the concrete association set, swapping the `y_terms`
argument leaves the result unchanged, and the record's two terms come from
`x_terms`. -/
theorem query_intersections_ignores_y_witness :
    demoA.query_intersections ["A", "B"] ["C"] =
      demoA.query_intersections ["A", "B"] [] ∧
    (demoRecordAB.x ∈ (["A", "B"] : List TermID) ∧
      demoRecordAB.y ∈ (["A", "B"] : List TermID)) :=
  ⟨(query_intersections_ignores_y demoA ["A", "B"] ["C"] []).1,
   (query_intersections_ignores_y demoA ["A", "B"] ["C"] []).2
     demoRecordAB (by
       rw [demo_intersections_eq]
       exact List.mem_singleton_self _)⟩

theorem enrichment_record_eq_some (A : AssociationSet)
    (fisher : ℤ → ℤ → ℤ → ℤ → String → ℚ) (sample bg : Finset SubjectID)
    (num : ℕ) (threshold : ℚ) (labels : Bool) (direction : String)
    (cls : TermID) (r : EnrichmentRecord)
    (h : A.enrichment_record fisher sample bg num threshold labels direction
      cls = some r) :
    r.c = cls ∧
    r.p_uncorrected = fisher (A.sample_count sample cls)
      ((sample.card : ℤ) - A.sample_count sample cls)
      ((A.bg_count bg cls : ℤ) - A.sample_count sample cls)
      (((bg.card : ℤ) - A.bg_count bg cls) -
        ((sample.card : ℤ) - A.sample_count sample cls))
      direction ∧
    r.p = min 1 (r.p_uncorrected * (num : ℚ)) := by
  simp only [AssociationSet.enrichment_record] at h
  split at h
  case isTrue h1 =>
    split at h
    · obtain rfl := Option.some.inj h
      exact ⟨rfl, rfl, (min_eq_left h1.le).symm⟩
    · exact absurd h (by simp)
  case isFalse h1 =>
    split at h
    · obtain rfl := Option.some.inj h
      exact ⟨rfl, rfl, (min_eq_right (not_lt.mp h1)).symm⟩
    · exact absurd h (by simp)

/-- C3: `enrichment_test` discards every hypothesis term with background
count at most 1 before correction, `num_hypotheses` is the number of retained
hypothesis terms, and every returned record has
`p = min 1 (p_uncorrected * num_hypotheses)` — hence `p_uncorrected ≤ p` —
provided the external exact test returns values in `[0,1]`. -/
theorem enrichment_test_correction (A : AssociationSet)
    (fisher : ℤ → ℤ → ℤ → ℤ → String → ℚ)
    (subjects : List SubjectID) (background : Option (List SubjectID))
    (threshold : ℚ) (labels : Bool) (direction : String)
    (hf : ∀ a b c2 d dir, 0 ≤ fisher a b c2 d dir ∧ fisher a b c2 d dir ≤ 1) :
    (∀ t, A.bg_count (A.effectiveBg background subjects.toFinset) t ≤ 1 →
      t ∉ A.retained_hypotheses subjects.toFinset
        (A.effectiveBg background subjects.toFinset)) ∧
    (A.num_hypotheses subjects.toFinset
        (A.effectiveBg background subjects.toFinset) =
      (A.retained_hypotheses subjects.toFinset
        (A.effectiveBg background subjects.toFinset)).length) ∧
    (∀ r ∈ A.enrichment_test fisher subjects background threshold labels
        direction,
      r.p = min 1 (r.p_uncorrected * (A.num_hypotheses subjects.toFinset
        (A.effectiveBg background subjects.toFinset) : ℚ)) ∧
      r.p_uncorrected ≤ r.p) := by
  refine ⟨?_, rfl, ?_⟩
  · intro t hle hmem
    have h2 := (List.mem_filter.mp hmem).2
    simp only [decide_eq_true_eq] at h2
    omega
  · intro r hr
    simp only [AssociationSet.enrichment_test] at hr
    have hr2 := (List.mergeSort_perm _ _).mem_iff.mp hr
    rcases List.mem_filterMap.mp hr2 with ⟨cls, hcls, hsome⟩
    obtain ⟨hc, hpu, hp⟩ := enrichment_record_eq_some A fisher
      subjects.toFinset (A.effectiveBg background subjects.toFinset) _
      threshold labels direction cls r hsome
    have hnum : 1 ≤ (A.retained_hypotheses subjects.toFinset
        (A.effectiveBg background subjects.toFinset)).length :=
      List.length_pos.mpr (List.ne_nil_of_mem hcls)
    have hnumQ : (1 : ℚ) ≤ ((A.retained_hypotheses subjects.toFinset
        (A.effectiveBg background subjects.toFinset)).length : ℚ) := by
      exact_mod_cast hnum
    refine ⟨hp, ?_⟩
    rw [hp, hpu]
    exact le_min (hf _ _ _ _ _).2
      (le_mul_of_one_le_right (hf _ _ _ _ _).1 hnumQ)

/-- Witness for C3: on the concrete association set with sample
`[g1, g2]` and default background, the unknown term `Z` has background count
at most 1 and is discarded from the retained hypotheses. -/
theorem enrichment_test_correction_witness :
    "Z" ∉ demoA.retained_hypotheses
      (["g1", "g2"] : List SubjectID).toFinset
      (demoA.effectiveBg none (["g1", "g2"] : List SubjectID).toFinset) :=
  (enrichment_test_correction demoA demoFisher ["g1", "g2"] none (1/20) false
    "greater" (fun _ _ _ _ _ => ⟨by norm_num [demoFisher],
      by norm_num [demoFisher]⟩)).1 "Z" (by decide)

/-- C8: with the background extended by the sample, every contingency-table
cell of `enrichment_test` is non-negative for every retained term:
`a ≤ bgCount`, `sampleSize - a ≥ 0`, `bgCount - a ≥ 0` and
`(bgSize - bgCount) - (sampleSize - a) ≥ 0`. -/
theorem enrichment_cells_nonneg (A : AssociationSet)
    (subjects : List SubjectID) (background : Option (List SubjectID))
    (cls : TermID)
    (hcls : cls ∈ A.retained_hypotheses subjects.toFinset
      (A.effectiveBg background subjects.toFinset)) :
    (A.sample_count subjects.toFinset cls : ℤ) ≤
      A.bg_count (A.effectiveBg background subjects.toFinset) cls ∧
    0 ≤ (subjects.toFinset.card : ℤ) - A.sample_count subjects.toFinset cls ∧
    0 ≤ (A.bg_count (A.effectiveBg background subjects.toFinset) cls : ℤ) -
      A.sample_count subjects.toFinset cls ∧
    0 ≤ (((A.effectiveBg background subjects.toFinset).card : ℤ) -
        A.bg_count (A.effectiveBg background subjects.toFinset) cls) -
      ((subjects.toFinset.card : ℤ) - A.sample_count subjects.toFinset cls) := by
  have hsub : subjects.toFinset ⊆ A.effectiveBg background subjects.toFinset :=
    Finset.subset_union_right
  have e1 : A.sample_count subjects.toFinset cls =
      (subjects.toFinset.filter (fun s => cls ∈ A.inferredD s)).card := rfl
  have e2 : A.bg_count (A.effectiveBg background subjects.toFinset) cls =
      ((A.effectiveBg background subjects.toFinset).filter
        (fun s => cls ∈ A.inferredD s)).card := rfl
  have h1 : (subjects.toFinset.filter (fun s => cls ∈ A.inferredD s)).card ≤
      ((A.effectiveBg background subjects.toFinset).filter
        (fun s => cls ∈ A.inferredD s)).card :=
    Finset.card_le_card (Finset.filter_subset_filter _ hsub)
  have h2 : (subjects.toFinset.filter (fun s => cls ∈ A.inferredD s)).card ≤
      subjects.toFinset.card := Finset.card_filter_le _ _
  have h3 : (subjects.toFinset.filter (fun s => ¬ cls ∈ A.inferredD s)).card ≤
      ((A.effectiveBg background subjects.toFinset).filter
        (fun s => ¬ cls ∈ A.inferredD s)).card :=
    Finset.card_le_card (Finset.filter_subset_filter _ hsub)
  have h4 : (subjects.toFinset.filter (fun s => cls ∈ A.inferredD s)).card +
      (subjects.toFinset.filter (fun s => ¬ cls ∈ A.inferredD s)).card =
      subjects.toFinset.card :=
    Finset.filter_card_add_filter_neg_card_eq_card _
  have h5 : ((A.effectiveBg background subjects.toFinset).filter
        (fun s => cls ∈ A.inferredD s)).card +
      ((A.effectiveBg background subjects.toFinset).filter
        (fun s => ¬ cls ∈ A.inferredD s)).card =
      (A.effectiveBg background subjects.toFinset).card :=
    Finset.filter_card_add_filter_neg_card_eq_card _
  rw [e1, e2]
  omega

/-- Witness for C8: the retained term `A` of the concrete enrichment run has
all four contingency cells non-negative. -/
theorem enrichment_cells_nonneg_witness :
    (demoA.sample_count (["g1", "g2"] : List SubjectID).toFinset "A" : ℤ) ≤
      demoA.bg_count (demoA.effectiveBg none
        (["g1", "g2"] : List SubjectID).toFinset) "A" ∧
    0 ≤ ((["g1", "g2"] : List SubjectID).toFinset.card : ℤ) -
      demoA.sample_count (["g1", "g2"] : List SubjectID).toFinset "A" ∧
    0 ≤ (demoA.bg_count (demoA.effectiveBg none
        (["g1", "g2"] : List SubjectID).toFinset) "A" : ℤ) -
      demoA.sample_count (["g1", "g2"] : List SubjectID).toFinset "A" ∧
    0 ≤ (((demoA.effectiveBg none
          (["g1", "g2"] : List SubjectID).toFinset).card : ℤ) -
        demoA.bg_count (demoA.effectiveBg none
          (["g1", "g2"] : List SubjectID).toFinset) "A") -
      (((["g1", "g2"] : List SubjectID).toFinset.card : ℤ) -
        demoA.sample_count (["g1", "g2"] : List SubjectID).toFinset "A") :=
  enrichment_cells_nonneg demoA ["g1", "g2"] none "A" (by
    unfold AssociationSet.retained_hypotheses
    refine List.mem_filter.mpr ⟨?_, ?_⟩
    · exact (Finset.mem_sort _).mpr (by decide)
    · decide)

/-- C9 (amended): when the effective background (given background, or all
indexed subjects when none is given, union the sample) is empty — which
forces the sample to be empty too — `enrichment_test` raises no error and
returns the empty record list. -/
theorem enrichment_test_empty_bg (A : AssociationSet)
    (fisher : ℤ → ℤ → ℤ → ℤ → String → ℚ)
    (subjects : List SubjectID) (background : Option (List SubjectID))
    (threshold : ℚ) (labels : Bool) (direction : String)
    (h : A.effectiveBg background subjects.toFinset = ∅) :
    A.enrichment_test fisher subjects background threshold labels direction =
      [] := by
  have hsample : subjects.toFinset = ∅ :=
    Finset.subset_empty.mp (h ▸ Finset.subset_union_right)
  have hret : A.retained_hypotheses subjects.toFinset
      (A.effectiveBg background subjects.toFinset) = [] := by
    unfold AssociationSet.retained_hypotheses AssociationSet.hypothesesOf
    rw [hsample]
    simp
  simp only [AssociationSet.enrichment_test, hret, List.filterMap_nil,
    List.mergeSort_nil]

/-- Witness for C9's amended claim: a concrete call with empty sample and
empty given background returns the empty record list. -/
theorem enrichment_test_empty_bg_witness :
    demoA.enrichment_test demoFisher [] (some []) (1/20) false "greater" =
      [] :=
  enrichment_test_empty_bg demoA demoFisher [] (some []) (1/20) false
    "greater" (by decide)

/-- Counterexample for C9 as stated: at the concrete empty-background input,
`enrichment_test` does not fail (the code has no `InvalidArgument` error at
all); it returns the empty result list. -/
theorem enrichment_test_empty_bg_counterexample :
    demoA.enrichment_test demoFisher [] (some []) 1 false "greater" = [] := by
  have hret : demoA.retained_hypotheses
      (([] : List SubjectID)).toFinset
      (demoA.effectiveBg (some []) (([] : List SubjectID)).toFinset) = [] := by
    unfold AssociationSet.retained_hypotheses AssociationSet.hypothesesOf
    simp
  simp only [AssociationSet.enrichment_test, hret, List.filterMap_nil,
    List.mergeSort_nil]

end AssocModel
